import Mathlib

/-!
Verification development for the osgrep-core native compute kernel
(src/osgrep-core/src/lib.rs and src/osgrep-core/src/colbert_ort.rs).

The Rust code is shallowly embedded: f32/f64 arithmetic is modelled by exact
rational arithmetic (ℚ), i8 by ℤ, usize/u32 by ℕ.  The ONNX inference call and
the subword tokenizer are external components (the spec places them out of
scope); they are modelled as parameters: a tokenized input is a `List ℕ` of
token ids, and the raw hidden states returned by the inference session are a
function `ℕ → ℚ` (flat row-major indexing), exactly as the Rust code reads
them from the output tensor.  The f32 square root used only inside L2
normalization is likewise a function parameter (`sqrtFn` in the encoder
state); no claim depends on its values.  `f32::NEG_INFINITY` as the running
maximum is modelled by `Option ℚ` with `none` for −∞ (every rational dot
product compares strictly above −∞, as every finite f32 does).
-/

namespace Osgrep

/-- QUERY_MAXLEN from colbert_ort.rs. -/
def QUERY_MAXLEN : ℕ := 32

/-- DOC_MAXLEN from colbert_ort.rs. -/
def DOC_MAXLEN : ℕ := 96

/-- The fields of `ColbertEncoderOrt` that the embedded operations read
(session and tokenizer are external; `sqrtFn` stands in for `f32::sqrt`).
The skip list is carried as a list of token ids (`HashSet` membership
becomes `List.contains`). -/
structure ColbertEncoderOrt where
  hidden_size : ℕ
  cls_id : ℕ
  sep_id : ℕ
  mask_id : ℕ
  pad_id : ℕ
  query_marker_id : Option ℕ
  doc_marker_id : Option ℕ
  skip_ids : List ℕ
  sqrtFn : ℚ → ℚ

/-- QueryEmbedding struct from colbert_ort.rs. -/
structure QueryEmbedding where
  embeddings : List ℚ
  seq_len : ℕ
  hidden_size : ℕ

/-- DocEmbedding struct from colbert_ort.rs. -/
structure DocEmbedding where
  embeddings : List ℚ
  token_ids : List ℕ
  seq_len : ℕ
  hidden_size : ℕ

/-- PackedDocEmbeddings struct from colbert_ort.rs. -/
structure PackedDocEmbeddings where
  embeddings : List ℚ
  token_ids : List ℕ
  lengths : List ℕ
  offsets : List ℕ
  hidden_size : ℕ

/-- One document input to encoding: the tokenizer's ids for the (possibly
marker-prefixed) text, plus that document's raw hidden states from the
inference session, indexed flat as `s * hidden_size + d`. -/
structure DocInput where
  token_ids : List ℕ
  data : ℕ → ℚ

/-- Input-sequence assembly for a query, colbert_ort.rs lines 142-161:
`[CLS] [Q]? tokens... [SEP] [MASK]...` padded with MASK to QUERY_MAXLEN. -/
def assembleQueryIds (enc : ColbertEncoderOrt) (token_ids : List ℕ) : List ℕ :=
  let base := [enc.cls_id] ++ (match enc.query_marker_id with
    | some q => [q]
    | none => [])
  let max_tokens := QUERY_MAXLEN - base.length - 1
  let with_sep := base ++ token_ids.take max_tokens ++ [enc.sep_id]
  with_sep ++ List.replicate (QUERY_MAXLEN - with_sep.length) enc.mask_id

/-- Input-sequence assembly for a document, colbert_ort.rs lines 238-252:
`[CLS] [D]? tokens... [SEP]`, truncated to DOC_MAXLEN. -/
def assembleDocIds (enc : ColbertEncoderOrt) (token_ids : List ℕ) : List ℕ :=
  let base := [enc.cls_id] ++ (match enc.doc_marker_id with
    | some d => [d]
    | none => [])
  let max_tokens := DOC_MAXLEN - base.length - 1
  base ++ token_ids.take max_tokens ++ [enc.sep_id]

/-- Per-row L2 normalization of a `[seq_len, hidden_size]` slice of raw
hidden states, colbert_ort.rs lines 184-200 and 297-314: each entry at flat
index `i` (row `i / hidden_size`) is divided by
`max (sqrt sum_sq) 1e-12` of its row. -/
def l2NormalizeRows (enc : ColbertEncoderOrt) (data : ℕ → ℚ) (seq_len : ℕ) : List ℚ :=
  (List.range (seq_len * enc.hidden_size)).map (fun i =>
    let s := i / enc.hidden_size
    let sum_sq := ((List.range enc.hidden_size).map (fun d =>
      data (s * enc.hidden_size + d) * data (s * enc.hidden_size + d))).sum
    let norm := max (enc.sqrtFn sum_sq) (1 / 10 ^ 12)
    data i / norm)

/-- encode_query from colbert_ort.rs (lines 124-207): assemble the fixed-
length query sequence, run inference (`data` is the raw output), and
L2-normalize every token row. -/
def encode_query (enc : ColbertEncoderOrt) (data : ℕ → ℚ) (token_ids : List ℕ) :
    QueryEmbedding :=
  let final_ids := assembleQueryIds enc token_ids
  let seq_len := final_ids.length
  { embeddings := l2NormalizeRows enc data seq_len
    seq_len := seq_len
    hidden_size := enc.hidden_size }

/-- Per-document part of encode_docs, colbert_ort.rs lines 221-258 and
294-321: assemble the sequence, keep only the first `real_len` rows of the
padded batch output (the padded rows are discarded unread, so the batch
padding is not observable), L2-normalize each kept row. -/
def encode_doc (enc : ColbertEncoderOrt) (inp : DocInput) : DocEmbedding :=
  let final_ids := assembleDocIds enc inp.token_ids
  let real_len := final_ids.length
  { embeddings := l2NormalizeRows enc inp.data real_len
    token_ids := final_ids
    seq_len := real_len
    hidden_size := enc.hidden_size }

/-- encode_docs from colbert_ort.rs lines 210-325. -/
def encode_docs (enc : ColbertEncoderOrt) (inputs : List DocInput) : List DocEmbedding :=
  inputs.map (encode_doc enc)

/-- Rust `slice::chunks n`: consecutive chunks of size at most `n`
(none emitted for the empty slice). -/
def chunksOf {α : Type} (n : ℕ) (l : List α) : List (List α) :=
  if h : l.isEmpty ∨ n = 0 then []
  else
    have : (l.drop n).length < l.length := by
      rcases l with _ | ⟨a, l⟩
      · simp at h
      · have hn : n ≠ 0 := by
          intro hn0
          exact h (Or.inr hn0)
        simp only [List.length_drop, List.length_cons]
        omega
    l.take n :: chunksOf n (l.drop n)
termination_by l.length

/-- Accumulator of the packing loop in encode_docs_packed
(colbert_ort.rs lines 470-485). -/
structure PackState where
  all_embeddings : List ℚ
  all_token_ids : List ℕ
  lengths : List ℕ
  offsets : List ℕ

/-- One iteration of the packing loop: record the current offset, the
document length, then append embeddings and token ids. -/
def packStep (st : PackState) (doc : DocEmbedding) : PackState :=
  { all_embeddings := st.all_embeddings ++ doc.embeddings
    all_token_ids := st.all_token_ids ++ doc.token_ids
    lengths := st.lengths ++ [doc.seq_len]
    offsets := st.offsets ++ [st.all_embeddings.length] }

/-- encode_docs_packed from colbert_ort.rs lines 458-495: empty input short-
circuits; otherwise documents are encoded in chunks of 64 and packed in
order. -/
def encode_docs_packed (enc : ColbertEncoderOrt) (inputs : List DocInput) :
    PackedDocEmbeddings :=
  if inputs.isEmpty then
    { embeddings := [], token_ids := [], lengths := [], offsets := []
      hidden_size := enc.hidden_size }
  else
    let docs := ((chunksOf 64 inputs).map (encode_docs enc)).flatten
    let st := docs.foldl packStep ⟨[], [], [], []⟩
    { embeddings := st.all_embeddings
      token_ids := st.all_token_ids
      lengths := st.lengths
      offsets := st.offsets
      hidden_size := enc.hidden_size }

/-- Rust `as i8` on an f32 already clamped into i8 range: round toward
zero. -/
def truncQ (x : ℚ) : ℤ := if x < 0 then ⌈x⌉ else ⌊x⌋

/-- Rust `f32::clamp self min max`: `if self < min { min } else if self > max
{ max } else { self }`. -/
def f32Clamp (x lo hi : ℚ) : ℚ := if x < lo then lo else if hi < x then hi else x

/-- The i8 quantization applied by embed_colbert_packed, lib.rs line 124:
`(x * 127.0).clamp(-128.0, 127.0) as i8`. -/
def quantI8 (x : ℚ) : ℤ := truncQ (f32Clamp (x * 127) (-128) 127)

/-- The dequantization applied by rerank_colbert, lib.rs line 203:
`(x as f32) / 127.0`. -/
def dequantI8 (q : ℤ) : ℚ := (q : ℚ) / 127

/-- ColbertPackedResult struct from lib.rs. -/
structure ColbertPackedResult where
  embeddings : List ℤ
  token_ids : List ℕ
  lengths : List ℕ
  offsets : List ℕ

/-- embed_colbert_packed from lib.rs lines 112-133: encode packed, then
quantize every f32 scalar to i8. -/
def embed_colbert_packed (enc : ColbertEncoderOrt) (inputs : List DocInput) :
    ColbertPackedResult :=
  let packed := encode_docs_packed enc inputs
  { embeddings := packed.embeddings.map quantI8
    token_ids := packed.token_ids
    lengths := packed.lengths
    offsets := packed.offsets }

/-- Dot product of query row `q` with document row `d`, colbert_ort.rs lines
341-347 (the loop runs over the query's hidden_size; the document row is
addressed via the document's hidden_size). -/
def dotAt (query : QueryEmbedding) (doc : DocEmbedding) (q d : ℕ) : ℚ :=
  ((List.range query.hidden_size).map (fun k =>
    query.embeddings.getD (q * query.hidden_size + k) 0 *
    doc.embeddings.getD (d * doc.hidden_size + k) 0)).sum

/-- The `if max_dot > f32::NEG_INFINITY { total_score += max_dot }` guard
(colbert_ort.rs lines 354-356 and 549-551): a never-raised running maximum
(still −∞, here `none`) contributes nothing. -/
def addMax (total_score : ℚ) (max_dot : Option ℚ) : ℚ :=
  match max_dot with
  | some m => total_score + m
  | none => total_score

/-- max_sim from colbert_ort.rs lines 328-360: for each query row take the
maximum dot product over non-skip-listed document rows (running maximum
starts at −∞, modelled as `none`; `dot > max_dot` becomes `m < dot`); a row
whose maximum was never set contributes nothing. -/
def max_sim (enc : ColbertEncoderOrt) (query : QueryEmbedding) (doc : DocEmbedding) : ℚ :=
  (List.range query.seq_len).foldl (fun total_score q =>
    addMax total_score ((List.range doc.seq_len).foldl (fun max_dot d =>
      if enc.skip_ids.contains (doc.token_ids.getD d 0) then max_dot
      else
        match max_dot with
        | none => some (dotAt query doc q d)
        | some m =>
          if m < dotAt query doc q d then some (dotAt query doc q d)
          else max_dot) none)) 0

/-- The token-id offset of document `doc_idx` in a packed index,
colbert_ort.rs lines 515-519: sum of the lengths of the preceding documents
(computed there by zipping the offset and length slices). -/
def tokenOffsetAt (packed : PackedDocEmbeddings) (doc_idx : ℕ) : ℕ :=
  (((packed.offsets.take doc_idx).zip (packed.lengths.take doc_idx)).map
    (fun p => p.2)).sum

/-- Dot product of query row `q` with packed document row `d` at embedding
offset `emb_offset`, colbert_ort.rs lines 537-542. -/
def packedDot (query : QueryEmbedding) (packed : PackedDocEmbeddings)
    (q emb_offset d : ℕ) : ℚ :=
  ((List.range query.hidden_size).map (fun k =>
    query.embeddings.getD (q * query.hidden_size + k) 0 *
    packed.embeddings.getD (emb_offset + d * packed.hidden_size + k) 0)).sum

/-- Body of the score_packed loop for one requested document index,
colbert_ort.rs lines 507-554: out-of-range indices score 0.0; otherwise
MaxSim over the document's slice with skip-list filtering.  The loop's local
bindings `doc_len = lengths[doc_idx]`, `emb_offset = offsets[doc_idx]` and
`token_offset` (`tokenOffsetAt`) are written inline. -/
def scoreOneDoc (enc : ColbertEncoderOrt) (query_emb : QueryEmbedding)
    (packed : PackedDocEmbeddings) (doc_idx : ℕ) : ℚ :=
  if packed.lengths.length ≤ doc_idx then 0
  else
    (List.range query_emb.seq_len).foldl (fun total_score q =>
      addMax total_score
        ((List.range (packed.lengths.getD doc_idx 0)).foldl (fun max_dot d =>
          if enc.skip_ids.contains
              (packed.token_ids.getD (tokenOffsetAt packed doc_idx + d) 0) then
            max_dot
          else
            match max_dot with
            | none =>
              some (packedDot query_emb packed q (packed.offsets.getD doc_idx 0) d)
            | some m =>
              if m < packedDot query_emb packed q (packed.offsets.getD doc_idx 0) d then
                some (packedDot query_emb packed q (packed.offsets.getD doc_idx 0) d)
              else max_dot) none)) 0

/-- score_packed from colbert_ort.rs lines 499-558: one score per requested
index, in request order. -/
def score_packed (enc : ColbertEncoderOrt) (query_emb : QueryEmbedding)
    (packed : PackedDocEmbeddings) (doc_indices : List ℕ) : List ℚ :=
  doc_indices.map (scoreOneDoc enc query_emb packed)

/-- The candidate sort shared by rerank_colbert (lib.rs line 223) and
rerank_from_packed (colbert_ort.rs line 595):
`sort_by(|a, b| b.1.partial_cmp(&a.1).unwrap_or(Equal))`.  Rust's
`slice::sort_by` is a stable sort, and for a total preorder comparator the
stable sorted result is unique, so any stable sort with the equivalent
`le` relation (here: `a` may precede `b` iff `b.score ≤ a.score`) denotes the
same list; we use `List.mergeSort`. -/
def sortByScoreDesc (l : List (ℕ × ℚ)) : List (ℕ × ℚ) :=
  l.mergeSort (fun a b => decide (b.2 ≤ a.2))

/-- RerankResultOrt struct from colbert_ort.rs. -/
structure RerankResultOrt where
  indices : List ℕ
  scores : List ℚ
  checksum : ℚ

/-- rerank_from_packed from colbert_ort.rs lines 561-608: encode the query
(`qdata` is the raw inference output for the assembled query sequence),
score all requested candidates, stable-sort descending, truncate to top_k;
the checksum is the sum of all raw scores before truncation. -/
def rerank_from_packed (enc : ColbertEncoderOrt) (qdata : ℕ → ℚ)
    (qtoken_ids : List ℕ) (packed : PackedDocEmbeddings)
    (doc_indices : List ℕ) (top_k : ℕ) : RerankResultOrt :=
  let query_emb := encode_query enc qdata qtoken_ids
  let raw_scores := score_packed enc query_emb packed doc_indices
  let indexed_scores := sortByScoreDesc (doc_indices.zip raw_scores)
  let k := min top_k indexed_scores.length
  { indices := (indexed_scores.take k).map Prod.fst
    scores := (indexed_scores.take k).map Prod.snd
    checksum := raw_scores.sum }

/-- RerankResult struct from lib.rs (no checksum field). -/
structure RerankResult where
  indices : List ℕ
  scores : List ℚ

/-- rerank_colbert from lib.rs lines 172-232: the query matrix is taken as
given (flat f64 array); `query_seq_len` is the integer division
`query_embeddings.len() / 48` with no shape validation; stored i8 document
embeddings are dequantized by `/ 127.0`; candidates are scored, stable-sorted
descending, truncated to top_k. -/
def rerank_colbert (enc : ColbertEncoderOrt) (query_embeddings : List ℚ)
    (doc_embeddings : List ℤ) (doc_token_ids : List ℕ) (doc_lengths : List ℕ)
    (doc_offsets : List ℕ) (candidate_indices : List ℕ) (top_k : ℕ) :
    RerankResult :=
  let hidden_size := 48
  let query_seq_len := query_embeddings.length / hidden_size
  let query_emb : QueryEmbedding :=
    { embeddings := query_embeddings
      seq_len := query_seq_len
      hidden_size := hidden_size }
  let doc_embeddings_f32 := doc_embeddings.map dequantI8
  let packed : PackedDocEmbeddings :=
    { embeddings := doc_embeddings_f32
      token_ids := doc_token_ids
      lengths := doc_lengths
      offsets := doc_offsets
      hidden_size := hidden_size }
  let scores := score_packed enc query_emb packed candidate_indices
  let indexed_scores := sortByScoreDesc (candidate_indices.zip scores)
  let k := min top_k indexed_scores.length
  { indices := (indexed_scores.take k).map Prod.fst
    scores := (indexed_scores.take k).map Prod.snd }

/-- encode_query_colbert from lib.rs lines 150-161: returns the query
embedding matrix flattened (the f32 → f64 cast is the identity in the
rational model). -/
def encode_query_colbert (enc : ColbertEncoderOrt) (data : ℕ → ℚ)
    (token_ids : List ℕ) : List ℚ :=
  (encode_query enc data token_ids).embeddings.map (fun x => x)

/-! Helper lemmas. -/

lemma truncQ_intCast (n : ℤ) : truncQ (n : ℚ) = n := by
  unfold truncQ
  split <;> simp

lemma truncQ_le_of_le {y : ℚ} {n : ℤ} (h : y ≤ n) : truncQ y ≤ n := by
  unfold truncQ
  split
  · exact Int.ceil_le.mpr h
  · calc ⌊y⌋ ≤ ⌊(n : ℚ)⌋ := Int.floor_le_floor h
      _ = n := Int.floor_intCast n

lemma le_truncQ_of_le {y : ℚ} {n : ℤ} (h : (n : ℚ) ≤ y) : n ≤ truncQ y := by
  unfold truncQ
  split
  · calc n = ⌈(n : ℚ)⌉ := (Int.ceil_intCast n).symm
      _ ≤ ⌈y⌉ := Int.ceil_le_ceil h
  · exact Int.le_floor.mpr h

/-- The quantizer from the source equals the spec's
`clamp(round_toward_zero(x · 127), -128, 127)`: truncating after clamping to
the f32 interval `[-128, 127]` agrees with clamping the truncated integer. -/
lemma quantI8_eq_clamp_trunc (x : ℚ) :
    quantI8 x = max (-128) (min 127 (truncQ (x * 127))) := by
  unfold quantI8 f32Clamp
  set y := x * 127 with hy
  by_cases h1 : y < -128
  · rw [if_pos h1]
    have hc : truncQ y ≤ -128 := truncQ_le_of_le (le_of_lt h1)
    have hv : truncQ ((-128 : ℚ)) = -128 := by
      have := truncQ_intCast (-128)
      push_cast at this
      exact this
    rw [hv]
    omega
  · by_cases h2 : (127 : ℚ) < y
    · rw [if_neg h1, if_pos h2]
      have hc : (127 : ℤ) ≤ truncQ y := le_truncQ_of_le (by push_cast; linarith)
      have hv : truncQ ((127 : ℚ)) = 127 := by
        have := truncQ_intCast 127
        push_cast at this
        exact this
      rw [hv]
      omega
    · rw [if_neg h1, if_neg h2]
      push_neg at h1 h2
      have hlo : (-128 : ℤ) ≤ truncQ y := le_truncQ_of_le (by push_cast; linarith)
      have hhi : truncQ y ≤ 127 := truncQ_le_of_le (by push_cast; linarith)
      omega

lemma abs_truncQ_sub_lt_one (y : ℚ) : |(truncQ y : ℚ) - y| < 1 := by
  unfold truncQ
  split
  · rw [abs_lt]
    constructor
    · linarith [Int.le_ceil y]
    · linarith [Int.ceil_lt_add_one y]
  · rw [abs_lt]
    constructor
    · linarith [Int.sub_one_lt_floor y]
    · linarith [Int.floor_le y]

/-! Claim theorems. -/

/-- C4: embed_colbert_packed quantizes every f32 scalar x to i8 as
clamp(round_toward_zero(x · 127.0), -128, 127), and rerank_colbert
dequantizes every stored i8 value q as q / 127.0; the scale 127 is a fixed
constant (both `quantI8` and `dequantI8` are closed definitions with no
per-row metadata). -/
theorem C4_quant_dequant_formula :
    (∀ x : ℚ, quantI8 x = max (-128) (min 127 (truncQ (x * 127)))) ∧
    (∀ q : ℤ, dequantI8 q = (q : ℚ) / 127) := by
  constructor
  · exact quantI8_eq_clamp_trunc
  · intro q
    rfl

/-- C2 fails as stated: at x = 19/1270 (within [-1, 1]) the round-trip error
is 9/1270, which exceeds 1/254 = 5/1270, because the encoder truncates toward
zero rather than rounding to nearest. -/
theorem C2_counterexample :
    |(19 : ℚ) / 1270| ≤ 1 ∧
    ¬ |dequantI8 (quantI8 ((19 : ℚ) / 1270)) - (19 : ℚ) / 1270| ≤ 1 / 254 := by
  have hq : quantI8 ((19 : ℚ) / 1270) = 1 := by
    unfold quantI8 f32Clamp truncQ
    rw [show (19 : ℚ) / 1270 * 127 = 19 / 10 by norm_num]
    rw [if_neg (by norm_num), if_neg (by norm_num), if_neg (by norm_num)]
    norm_num
  constructor
  · rw [abs_le]
    constructor <;> norm_num
  · rw [hq]
    have hval : dequantI8 1 - (19 : ℚ) / 1270 = -(9 / 1270) := by
      unfold dequantI8
      norm_num
    rw [hval, abs_neg, abs_of_nonneg (by norm_num)]
    norm_num

/-- C2 amended: for every scalar x with |x| ≤ 1, the round-trip quantization
error is strictly below 1/127 (truncation toward zero loses up to one whole
quantization step, not half a step). -/
theorem C2_amended_quant_error (x : ℚ) (hx : |x| ≤ 1) :
    |dequantI8 (quantI8 x) - x| < 1 / 127 := by
  obtain ⟨hx1, hx2⟩ := abs_le.mp hx
  have hclamp : f32Clamp (x * 127) (-128) 127 = x * 127 := by
    unfold f32Clamp
    rw [if_neg (by linarith), if_neg (by linarith)]
  unfold quantI8 dequantI8
  rw [hclamp]
  have herr := abs_truncQ_sub_lt_one (x * 127)
  have hrw : (truncQ (x * 127) : ℚ) / 127 - x = ((truncQ (x * 127) : ℚ) - x * 127) / 127 := by
    ring
  rw [hrw, abs_div]
  rw [show |(127 : ℚ)| = 127 by norm_num]
  rw [div_lt_div_iff₀ (by norm_num) (by norm_num)]
  linarith

/-- C2 amended, witness at x = 19/1270. -/
lemma getD_map_range {α : Type} (g : ℕ → α) (dflt : α) {k n : ℕ} (hk : k < n) :
    ((List.range n).map g).getD k dflt = g k := by
  rw [List.getD_eq_getElem?_getD, List.getElem?_map, List.getElem?_range hk]
  rfl

/-- Concrete encoder used by witnesses (hidden size 48, as installed by
`init_models` in lib.rs). -/
def encW : ColbertEncoderOrt :=
  { hidden_size := 48, cls_id := 101, sep_id := 102, mask_id := 103, pad_id := 0
    query_marker_id := some 1, doc_marker_id := some 2, skip_ids := []
    sqrtFn := fun _ => 0 }

/-- Concrete raw-hidden-state oracle used by witnesses. -/
def dataW : ℕ → ℚ := fun _ => 0

/-- Concrete document input used by witnesses. -/
def inpW : DocInput := ⟨[], dataW⟩

/-- Concrete query embedding used by witnesses (one row, hidden size 1). -/
def qW : QueryEmbedding := { embeddings := [1], seq_len := 1, hidden_size := 1 }

/-- Concrete packed index used by witnesses (one document of two tokens,
hidden size 1, integer-valued embeddings). -/
def packedW : PackedDocEmbeddings :=
  { embeddings := [3, 4], token_ids := [5, 6], lengths := [2], offsets := [0]
    hidden_size := 1 }

/-- Concrete encoder with token id 5 on the skip list (hidden size 1). -/
def encW1 : ColbertEncoderOrt :=
  { hidden_size := 1, cls_id := 0, sep_id := 0, mask_id := 0, pad_id := 0
    query_marker_id := none, doc_marker_id := none, skip_ids := [5]
    sqrtFn := fun _ => 0 }

theorem C2_amended_witness :
    |(19 : ℚ) / 1270| ≤ 1 ∧
    |dequantI8 (quantI8 ((19 : ℚ) / 1270)) - (19 : ℚ) / 1270| < 1 / 127 :=
  ⟨by rw [abs_le]; constructor <;> norm_num,
   C2_amended_quant_error ((19 : ℚ) / 1270)
     (by rw [abs_le]; constructor <;> norm_num)⟩

/-- C10: for every candidate index in doc_indices that is out of range
(at least lengths.len), score_packed emits a score of 0.0 at that position
instead of failing, and the returned list has exactly one score per requested
index, in request order. -/
theorem C10_out_of_range_zero :
    ∀ (enc : ColbertEncoderOrt) (query_emb : QueryEmbedding)
      (packed : PackedDocEmbeddings) (doc_indices : List ℕ),
      (score_packed enc query_emb packed doc_indices).length = doc_indices.length ∧
      ∀ i < doc_indices.length,
        packed.lengths.length ≤ doc_indices.getD i 0 →
        (score_packed enc query_emb packed doc_indices).getD i 0 = 0 := by
  intro enc q packed idxs
  refine ⟨List.length_map _ _, ?_⟩
  intro i hi hrange
  have hi' : i < (score_packed enc q packed idxs).length := by
    simpa [score_packed] using hi
  rw [List.getD_eq_getElem _ _ hi']
  show (idxs.map (scoreOneDoc enc q packed))[i] = 0
  rw [List.getElem_map]
  unfold scoreOneDoc
  rw [if_pos]
  rw [← List.getD_eq_getElem idxs 0 hi]
  exact hrange

/-- C10, witness: requested index 9 is out of range for a one-document
packed index; its score is 0. -/
theorem C10_witness :
    (score_packed encW1 qW packedW [9]).length = 1 ∧
    (score_packed encW1 qW packedW [9]).getD 0 0 = 0 :=
  ⟨(C10_out_of_range_zero encW1 qW packedW [9]).1,
   (C10_out_of_range_zero encW1 qW packedW [9]).2 0 (by decide) (by decide)⟩

/-- C1: the checksum emitted by the rerank operation equals the sum, over
all requested candidates (pre-truncation, independent of top_k), of that
candidate's MaxSim score. -/
theorem C1_checksum_sum :
    ∀ (enc : ColbertEncoderOrt) (qdata : ℕ → ℚ) (qtoken_ids : List ℕ)
      (packed : PackedDocEmbeddings) (doc_indices : List ℕ) (top_k : ℕ),
      (rerank_from_packed enc qdata qtoken_ids packed doc_indices top_k).checksum =
        (doc_indices.map
          (scoreOneDoc enc (encode_query enc qdata qtoken_ids) packed)).sum := by
  intro enc qdata qtoken_ids packed doc_indices top_k
  rfl

/-- C3 fails as stated: a call with a query of 48 scalars (not 32·48 = 1536)
does not fail — rerank_colbert performs no shape validation and returns one
score for the one candidate. -/
theorem C3_counterexample :
    (List.replicate 48 (1 : ℚ)).length ≠ 32 * 48 ∧
    (rerank_colbert encW (List.replicate 48 (1 : ℚ)) (List.replicate 48 127)
        [9] [1] [0] [0] 1).scores.length = 1 := by
  constructor
  · simp
  · simp [rerank_colbert, sortByScoreDesc, score_packed, List.length_mergeSort]

/-- C3 amended: rerank_colbert performs no shape validation on
query_embeddings: for every query length it succeeds (interpreting the query
as ⌊len/48⌋ rows) and returns exactly min(top_k, #candidates) indices and
scores. -/
theorem C3_amended_no_shape_check :
    ∀ (enc : ColbertEncoderOrt) (query_embeddings : List ℚ)
      (doc_embeddings : List ℤ) (doc_token_ids : List ℕ) (doc_lengths : List ℕ)
      (doc_offsets : List ℕ) (candidate_indices : List ℕ) (top_k : ℕ),
      (rerank_colbert enc query_embeddings doc_embeddings doc_token_ids
          doc_lengths doc_offsets candidate_indices top_k).indices.length =
        min top_k candidate_indices.length ∧
      (rerank_colbert enc query_embeddings doc_embeddings doc_token_ids
          doc_lengths doc_offsets candidate_indices top_k).scores.length =
        min top_k candidate_indices.length := by
  intro enc qe de dt dl dof cands k
  constructor <;>
    simp [rerank_colbert, sortByScoreDesc, score_packed, List.length_mergeSort]

/-- C6: the assembled query sequence always has exactly QUERY_MAXLEN = 32
token positions, encode_query returns exactly 32·hidden_size scalars
regardless of the input length, and encode_query_colbert (hidden size 48)
returns exactly 1536 scalars. -/
theorem C6_query_shape :
    ∀ (enc : ColbertEncoderOrt) (data : ℕ → ℚ) (token_ids : List ℕ),
      (assembleQueryIds enc token_ids).length = QUERY_MAXLEN ∧
      (encode_query enc data token_ids).embeddings.length = 32 * enc.hidden_size ∧
      (enc.hidden_size = 48 →
        (encode_query_colbert enc data token_ids).length = 1536) := by
  intro enc data tok
  have hassem : (assembleQueryIds enc tok).length = QUERY_MAXLEN := by
    unfold assembleQueryIds
    rcases hq : enc.query_marker_id with _ | q <;> simp [QUERY_MAXLEN] <;> omega
  have hlen : (encode_query enc data tok).embeddings.length = 32 * enc.hidden_size := by
    show (l2NormalizeRows enc data (assembleQueryIds enc tok).length).length =
      32 * enc.hidden_size
    rw [hassem]
    simp [l2NormalizeRows, QUERY_MAXLEN]
  refine ⟨hassem, hlen, ?_⟩
  intro h48
  show ((encode_query enc data tok).embeddings.map _).length = 1536
  rw [List.length_map, hlen, h48]

/-- C6, witness: a one-character-worth-of-tokens query (empty token list)
still yields 1536 scalars with the hidden-48 encoder. -/
theorem C6_witness : (encode_query_colbert encW dataW []).length = 1536 :=
  (C6_query_shape encW dataW []).2.2 rfl

/-! Packing infrastructure: closed forms for the chunked encoding loop and
the packing fold. -/

lemma chunksOf_flatten {α : Type} (n : ℕ) (hn : 0 < n) (l : List α) :
    (chunksOf n l).flatten = l := by
  generalize hm : l.length = m
  induction m using Nat.strong_induction_on generalizing l with
  | _ m ih =>
    rw [chunksOf]
    split
    · rename_i h
      rcases h with h | h
      · rw [List.isEmpty_iff] at h
        rw [h]
        rfl
      · omega
    · rename_i h
      have hne : l ≠ [] := by
        intro hnil
        exact h (Or.inl (List.isEmpty_iff.mpr hnil))
      have hlt : (l.drop n).length < m := by
        rw [List.length_drop]
        have : 0 < l.length := List.length_pos.mpr hne
        omega
      rw [List.flatten_cons, ih _ hlt _ rfl, List.take_append_drop]

lemma encode_docs_chunked (enc : ColbertEncoderOrt) (inputs : List DocInput) :
    ((chunksOf 64 inputs).map (encode_docs enc)).flatten =
      inputs.map (encode_doc enc) := by
  show ((chunksOf 64 inputs).map (List.map (encode_doc enc))).flatten = _
  rw [← List.map_flatten, chunksOf_flatten 64 (by norm_num)]

lemma foldl_packStep_eq (docs : List DocEmbedding) (st : PackState) :
    docs.foldl packStep st =
      { all_embeddings := st.all_embeddings ++ (docs.map (fun d => d.embeddings)).flatten
        all_token_ids := st.all_token_ids ++ (docs.map (fun d => d.token_ids)).flatten
        lengths := st.lengths ++ docs.map (fun d => d.seq_len)
        offsets := st.offsets ++ (List.range docs.length).map (fun i =>
          st.all_embeddings.length +
            ((docs.take i).map (fun d => d.embeddings.length)).sum) } := by
  induction docs generalizing st with
  | nil => simp
  | cons d ds ih =>
    rw [List.foldl_cons, ih]
    unfold packStep
    congr 1
    · simp
    · simp
    · simp
    · simp only [List.length_cons, List.range_succ_eq_map, List.map_cons,
        List.map_map, List.take_zero, List.map_nil, List.sum_nil, Nat.add_zero,
        List.append_assoc, List.singleton_append, List.length_append]
      congr 1
      congr 1
      apply List.map_congr_left
      intro i _
      simp only [Function.comp_apply, List.take_succ_cons, List.map_cons,
        List.sum_cons, List.length_append]
      omega

lemma encode_doc_embeddings_length (enc : ColbertEncoderOrt) (inp : DocInput) :
    (encode_doc enc inp).embeddings.length =
      (encode_doc enc inp).seq_len * enc.hidden_size := by
  show (l2NormalizeRows enc inp.data (assembleDocIds enc inp.token_ids).length).length = _
  simp [l2NormalizeRows, encode_doc]

lemma encode_doc_token_ids_length (enc : ColbertEncoderOrt) (inp : DocInput) :
    (encode_doc enc inp).token_ids.length = (encode_doc enc inp).seq_len := rfl

lemma assembleDocIds_length_bounds (enc : ColbertEncoderOrt) (token_ids : List ℕ) :
    2 ≤ (assembleDocIds enc token_ids).length ∧
    (assembleDocIds enc token_ids).length ≤ 96 := by
  unfold assembleDocIds
  rcases hd : enc.doc_marker_id with _ | d <;> simp [DOC_MAXLEN]

/-- C8: every entry of the lengths array produced by encode_docs /
encode_docs_packed lies in [2, 96]: each assembled sequence contains at
least CLS and SEP and at most DOC_MAXLEN = 96 tokens. -/
theorem C8_doc_length_bounds :
    ∀ (enc : ColbertEncoderOrt) (inputs : List DocInput),
      (∀ d ∈ encode_docs enc inputs, 2 ≤ d.seq_len ∧ d.seq_len ≤ 96) ∧
      (∀ x ∈ (encode_docs_packed enc inputs).lengths, 2 ≤ x ∧ x ≤ 96) := by
  have hassem := assembleDocIds_length_bounds
  intro enc inputs
  constructor
  · intro d hd
    rcases List.mem_map.mp hd with ⟨inp, _, rfl⟩
    exact hassem enc inp.token_ids
  · intro x hx
    unfold encode_docs_packed at hx
    split at hx
    · simp at hx
    · simp only [encode_docs_chunked, foldl_packStep_eq, List.nil_append] at hx
      rcases List.mem_map.mp hx with ⟨de, hde, rfl⟩
      rcases List.mem_map.mp hde with ⟨inp, _, rfl⟩
      exact hassem enc inp.token_ids

/-- C8, witness: the single empty-text document assembles to 3 tokens
(CLS, [D] marker, SEP), within [2, 96]. -/
theorem C8_witness :
    2 ≤ (encode_doc encW inpW).seq_len ∧ (encode_doc encW inpW).seq_len ≤ 96 :=
  (C8_doc_length_bounds encW [inpW]).1 (encode_doc encW inpW)
    (by simp [encode_docs])

lemma encode_docs_packed_eq (enc : ColbertEncoderOrt) (inputs : List DocInput)
    (h : inputs ≠ []) :
    encode_docs_packed enc inputs =
      { embeddings :=
          ((inputs.map (encode_doc enc)).map (fun d => d.embeddings)).flatten
        token_ids :=
          ((inputs.map (encode_doc enc)).map (fun d => d.token_ids)).flatten
        lengths := (inputs.map (encode_doc enc)).map (fun d => d.seq_len)
        offsets := (List.range inputs.length).map (fun i =>
          (((inputs.map (encode_doc enc)).take i).map
            (fun d => d.embeddings.length)).sum)
        hidden_size := enc.hidden_size } := by
  unfold encode_docs_packed
  rw [if_neg (by simpa [List.isEmpty_iff] using h)]
  simp only [encode_docs_chunked, foldl_packStep_eq, List.nil_append,
    List.length_map, List.length_nil, Nat.zero_add]

lemma sum_take_le_sum (l : List ℕ) (i : ℕ) : (l.take i).sum ≤ l.sum := by
  conv_rhs => rw [← List.take_append_drop i l]
  rw [List.sum_append]
  omega

lemma sum_take_succ_getD (l : List ℕ) (i : ℕ) (h : i < l.length) :
    (l.take (i + 1)).sum = (l.take i).sum + l.getD i 0 := by
  rw [List.getD_eq_getElem _ _ h]
  exact List.sum_take_succ l i h

/-- C5: for every non-empty input list (and the encoder's positive hidden
size, 48 in the shipped configuration), the PackedIndex produced by
encode_docs_packed, and likewise the quantized one produced by
embed_colbert_packed, satisfies: offsets[0] = 0; offsets is strictly
increasing; offsets[i] + lengths[i]·hidden_size ≤ len(embeddings) for every
document i; and Σ lengths = len(token_ids). -/
theorem C5_packed_invariants :
    ∀ (enc : ColbertEncoderOrt) (inputs : List DocInput),
      inputs ≠ [] → 0 < enc.hidden_size →
      ((encode_docs_packed enc inputs).offsets.getD 0 0 = 0 ∧
       List.Sorted (· < ·) (encode_docs_packed enc inputs).offsets ∧
       (∀ i < (encode_docs_packed enc inputs).lengths.length,
         (encode_docs_packed enc inputs).offsets.getD i 0 +
           (encode_docs_packed enc inputs).lengths.getD i 0 * enc.hidden_size ≤
           (encode_docs_packed enc inputs).embeddings.length) ∧
       (encode_docs_packed enc inputs).lengths.sum =
         (encode_docs_packed enc inputs).token_ids.length) ∧
      ((embed_colbert_packed enc inputs).offsets.getD 0 0 = 0 ∧
       List.Sorted (· < ·) (embed_colbert_packed enc inputs).offsets ∧
       (∀ i < (embed_colbert_packed enc inputs).lengths.length,
         (embed_colbert_packed enc inputs).offsets.getD i 0 +
           (embed_colbert_packed enc inputs).lengths.getD i 0 * enc.hidden_size ≤
           (embed_colbert_packed enc inputs).embeddings.length) ∧
       (embed_colbert_packed enc inputs).lengths.sum =
         (embed_colbert_packed enc inputs).token_ids.length) := by
  intro enc inputs hne hH
  have hdl : ∀ d ∈ inputs.map (encode_doc enc),
      d.embeddings.length = d.seq_len * enc.hidden_size ∧
      d.token_ids.length = d.seq_len ∧ 2 ≤ d.seq_len := by
    intro d hd
    rcases List.mem_map.mp hd with ⟨inp, _, rfl⟩
    exact ⟨encode_doc_embeddings_length enc inp, rfl,
      (assembleDocIds_length_bounds enc inp.token_ids).1⟩
  have hn : 0 < inputs.length := List.length_pos.mpr hne
  set p := encode_docs_packed enc inputs with hp_def
  have hoff : p.offsets = (List.range inputs.length).map (fun i =>
      (((inputs.map (encode_doc enc)).take i).map
        (fun d => d.embeddings.length)).sum) := by
    rw [hp_def, encode_docs_packed_eq enc inputs hne]
  have hlens : p.lengths = (inputs.map (encode_doc enc)).map (fun d => d.seq_len) := by
    rw [hp_def, encode_docs_packed_eq enc inputs hne]
  have htok : p.token_ids =
      ((inputs.map (encode_doc enc)).map (fun d => d.token_ids)).flatten := by
    rw [hp_def, encode_docs_packed_eq enc inputs hne]
  have hemb : p.embeddings =
      ((inputs.map (encode_doc enc)).map (fun d => d.embeddings)).flatten := by
    rw [hp_def, encode_docs_packed_eq enc inputs hne]
  have hdlen : (inputs.map (encode_doc enc)).length = inputs.length :=
    List.length_map _ _
  generalize hdocs : inputs.map (encode_doc enc) = docs at hdl hoff hlens htok hemb hdlen
  -- invariant 1: the first offset is 0
  have h0 : p.offsets.getD 0 0 = 0 := by
    rw [hoff, getD_map_range _ _ hn]
    simp
  -- positivity of each document's flat embedding length
  have hpos : ∀ i, i < docs.length →
      0 < (docs.map (fun d => d.embeddings.length)).getD i 0 := by
    intro i hi
    rw [List.getD_eq_getElem _ _ (by simpa using hi), List.getElem_map]
    have hm := hdl _ (List.getElem_mem hi)
    rw [hm.1]
    have h2 := hm.2.2
    exact Nat.mul_pos (by omega) hH
  -- invariant 2: offsets strictly increasing
  have hsorted : List.Sorted (· < ·) p.offsets := by
    rw [hoff]
    show List.Pairwise (· < ·) _
    rw [← List.chain'_iff_pairwise]
    rw [List.chain'_map]
    rcases hc : inputs.length with _ | m
    · simp
    · rw [List.chain'_range_succ]
      intro i him
      have hi : i < docs.length := by omega
      have hiL : i < (docs.map (fun d => d.embeddings.length)).length := by
        simpa using hi
      simp only [List.map_take]
      rw [sum_take_succ_getD (docs.map (fun d => d.embeddings.length)) i hiL]
      have hx := hpos i hi
      omega
  -- invariant 3: offsets[i] + lengths[i]·H ≤ embeddings.length
  have hbound : ∀ i < p.lengths.length,
      p.offsets.getD i 0 + p.lengths.getD i 0 * enc.hidden_size ≤
        p.embeddings.length := by
    intro i hi
    have hi' : i < docs.length := by
      rw [hlens] at hi
      simpa using hi
    have hiL : i < (docs.map (fun d => d.embeddings.length)).length := by
      simpa using hi'
    rw [hoff, getD_map_range _ _ (by omega : i < inputs.length)]
    rw [hlens, hemb, List.length_flatten]
    have e1 : (List.map List.length (List.map (fun d => d.embeddings) docs)).sum =
        (docs.map (fun d => d.embeddings.length)).sum := by
      rw [List.map_map]
      rfl
    rw [e1]
    have e2 : (List.map (fun d => d.embeddings.length) (docs.take i)).sum =
        ((docs.map (fun d => d.embeddings.length)).take i).sum := by
      rw [List.map_take]
    rw [e2]
    have e3 := sum_take_succ_getD (docs.map (fun d => d.embeddings.length)) i hiL
    have e4 : (docs.map (fun d => d.embeddings.length)).getD i 0 =
        (docs.map (fun d => d.seq_len)).getD i 0 * enc.hidden_size := by
      rw [List.getD_eq_getElem _ _ hiL,
        List.getD_eq_getElem _ _
          (show i < (docs.map (fun d => d.seq_len)).length by simpa using hi'),
        List.getElem_map, List.getElem_map]
      exact (hdl _ (List.getElem_mem hi')).1
    have e6 := sum_take_le_sum (docs.map (fun d => d.embeddings.length)) (i + 1)
    omega
  -- invariant 4: Σ lengths = len(token_ids)
  have hsum4 : p.lengths.sum = p.token_ids.length := by
    rw [hlens, htok, List.length_flatten]
    conv_rhs => rw [List.map_map]
    apply congrArg
    apply List.map_congr_left
    intro d hd
    exact ((hdl d hd).2.1).symm
  -- the quantized result shares the side arrays and the embeddings length
  have hq_off : (embed_colbert_packed enc inputs).offsets = p.offsets := rfl
  have hq_len : (embed_colbert_packed enc inputs).lengths = p.lengths := rfl
  have hq_tok : (embed_colbert_packed enc inputs).token_ids = p.token_ids := rfl
  have hq_emb : (embed_colbert_packed enc inputs).embeddings.length =
      p.embeddings.length := List.length_map _ _
  refine ⟨⟨h0, hsorted, hbound, hsum4⟩, ?_, ?_, ?_, ?_⟩
  · rw [hq_off]
    exact h0
  · rw [hq_off]
    exact hsorted
  · intro i hi
    rw [hq_off, hq_len, hq_emb]
    rw [hq_len] at hi
    exact hbound i hi
  · rw [hq_len, hq_tok]
    exact hsum4

/-- C5, witness: a single empty-text document with the hidden-48 encoder. -/
theorem C5_witness :
    ([inpW] : List DocInput) ≠ [] ∧ 0 < encW.hidden_size ∧
    (((encode_docs_packed encW [inpW]).offsets.getD 0 0 = 0 ∧
      List.Sorted (· < ·) (encode_docs_packed encW [inpW]).offsets ∧
      (∀ i < (encode_docs_packed encW [inpW]).lengths.length,
        (encode_docs_packed encW [inpW]).offsets.getD i 0 +
          (encode_docs_packed encW [inpW]).lengths.getD i 0 * encW.hidden_size ≤
          (encode_docs_packed encW [inpW]).embeddings.length) ∧
      (encode_docs_packed encW [inpW]).lengths.sum =
        (encode_docs_packed encW [inpW]).token_ids.length) ∧
     ((embed_colbert_packed encW [inpW]).offsets.getD 0 0 = 0 ∧
      List.Sorted (· < ·) (embed_colbert_packed encW [inpW]).offsets ∧
      (∀ i < (embed_colbert_packed encW [inpW]).lengths.length,
        (embed_colbert_packed encW [inpW]).offsets.getD i 0 +
          (embed_colbert_packed encW [inpW]).lengths.getD i 0 * encW.hidden_size ≤
          (embed_colbert_packed encW [inpW]).embeddings.length) ∧
      (embed_colbert_packed encW [inpW]).lengths.sum =
        (embed_colbert_packed encW [inpW]).token_ids.length)) :=
  ⟨by simp, by decide, C5_packed_invariants encW [inpW] (by simp) (by decide)⟩

/-! MaxSim infrastructure: the scoring loops viewed as folds over the list of
non-skip-listed document rows. -/

lemma foldl_self {α β : Type} : ∀ (l : List α) (init : β),
    l.foldl (fun acc _ => acc) init = init := by
  intro l
  induction l with
  | nil => intro init; rfl
  | cons a t ih => intro init; exact ih init

lemma foldl_if_skip {α β : Type} (C : α → Bool) (g : β → α → β) :
    ∀ (l : List α) (init : β), (∀ a ∈ l, C a = true) →
      l.foldl (fun acc a => if C a then acc else g acc a) init = init := by
  intro l
  induction l with
  | nil => intro init _; rfl
  | cons a t ih =>
    intro init h
    rw [List.foldl_cons, if_pos (h a (List.mem_cons_self a t))]
    exact ih init (fun b hb => h b (List.mem_cons_of_mem a hb))

lemma foldl_filterMap {α β γ : Type} (g : α → Option β) (h : γ → β → γ) :
    ∀ (l : List α) (init : γ),
      l.foldl (fun acc a => match g a with | none => acc | some b => h acc b) init =
        (l.filterMap g).foldl h init := by
  intro l
  induction l with
  | nil => intro init; rfl
  | cons a t ih =>
    intro init
    rw [List.foldl_cons, List.filterMap_cons]
    cases hga : g a with
    | none =>
      simp only [hga]
      exact ih init
    | some b =>
      simp only [hga]
      exact ih (h init b)

/-- The dot product of query row `q` against an extracted document row. -/
def dotRow (query : QueryEmbedding) (q : ℕ) (row : List ℚ) : ℚ :=
  ((List.range query.hidden_size).map (fun k =>
    query.embeddings.getD (q * query.hidden_size + k) 0 * row.getD k 0)).sum

/-- MaxSim over an explicit list of document rows (no skip list: the rows
are already filtered). -/
def maxSimRows (query : QueryEmbedding) (rows : List (List ℚ)) : ℚ :=
  (List.range query.seq_len).foldl (fun total_score q =>
    addMax total_score (rows.foldl (fun max_dot row =>
      match max_dot with
      | none => some (dotRow query q row)
      | some m =>
        if m < dotRow query q row then some (dotRow query q row)
        else max_dot) none)) 0

/-- Row `d` of a DocEmbedding as a list of `hidden_size` scalars. -/
def docRow (doc : DocEmbedding) (d : ℕ) : List ℚ :=
  (List.range doc.hidden_size).map (fun k =>
    doc.embeddings.getD (d * doc.hidden_size + k) 0)

/-- The rows of a document that are visible to MaxSim: rows whose token id is
not on the skip list, in document order. -/
def nonSkipRows (enc : ColbertEncoderOrt) (doc : DocEmbedding) : List (List ℚ) :=
  (List.range doc.seq_len).filterMap (fun d =>
    if enc.skip_ids.contains (doc.token_ids.getD d 0) then none
    else some (docRow doc d))

/-- Row `d` of a packed document starting at element `emb_offset`. -/
def packedRowAt (packed : PackedDocEmbeddings) (emb_offset d : ℕ) : List ℚ :=
  (List.range packed.hidden_size).map (fun k =>
    packed.embeddings.getD (emb_offset + d * packed.hidden_size + k) 0)

/-- The visible (non-skip-listed) rows of packed document `doc_idx`. -/
def nonSkipPackedRows (enc : ColbertEncoderOrt) (packed : PackedDocEmbeddings)
    (doc_idx : ℕ) : List (List ℚ) :=
  (List.range (packed.lengths.getD doc_idx 0)).filterMap (fun d =>
    if enc.skip_ids.contains
        (packed.token_ids.getD (tokenOffsetAt packed doc_idx + d) 0) then none
    else some (packedRowAt packed (packed.offsets.getD doc_idx 0) d))

lemma dotRow_docRow (query : QueryEmbedding) (doc : DocEmbedding)
    (hq : doc.hidden_size = query.hidden_size) (q d : ℕ) :
    dotRow query q (docRow doc d) = dotAt query doc q d := by
  unfold dotRow dotAt docRow
  apply congrArg List.sum
  apply List.map_congr_left
  intro k hk
  have hk' : k < doc.hidden_size := by
    rw [hq]
    exact List.mem_range.mp hk
  rw [getD_map_range _ _ hk']

lemma dotRow_packedRowAt (query : QueryEmbedding) (packed : PackedDocEmbeddings)
    (hp : packed.hidden_size = query.hidden_size) (q emb_offset d : ℕ) :
    dotRow query q (packedRowAt packed emb_offset d) =
      packedDot query packed q emb_offset d := by
  unfold dotRow packedDot packedRowAt
  apply congrArg List.sum
  apply List.map_congr_left
  intro k hk
  have hk' : k < packed.hidden_size := by
    rw [hp]
    exact List.mem_range.mp hk
  rw [getD_map_range _ _ hk']

lemma max_sim_eq_maxSimRows (enc : ColbertEncoderOrt) (query : QueryEmbedding)
    (doc : DocEmbedding) (hq : doc.hidden_size = query.hidden_size) :
    max_sim enc query doc = maxSimRows query (nonSkipRows enc doc) := by
  unfold max_sim maxSimRows nonSkipRows
  apply List.foldl_ext
  intro total q _
  apply congrArg (addMax total)
  rw [← foldl_filterMap
    (fun d => if enc.skip_ids.contains (doc.token_ids.getD d 0) then none
      else some (docRow doc d))
    (fun max_dot row =>
      match max_dot with
      | none => some (dotRow query q row)
      | some m =>
        if m < dotRow query q row then some (dotRow query q row) else max_dot)
    (List.range doc.seq_len) none]
  apply List.foldl_ext
  intro acc d _
  by_cases hskip : enc.skip_ids.contains (doc.token_ids.getD d 0) = true
  · rw [if_pos hskip, if_pos hskip]
  · rw [if_neg hskip, if_neg hskip]
    simp only [dotRow_docRow query doc hq]

lemma scoreOneDoc_eq_maxSimRows (enc : ColbertEncoderOrt) (query : QueryEmbedding)
    (packed : PackedDocEmbeddings) (doc_idx : ℕ)
    (hin : doc_idx < packed.lengths.length)
    (hp : packed.hidden_size = query.hidden_size) :
    scoreOneDoc enc query packed doc_idx =
      maxSimRows query (nonSkipPackedRows enc packed doc_idx) := by
  unfold scoreOneDoc maxSimRows nonSkipPackedRows
  rw [if_neg (by omega)]
  apply List.foldl_ext
  intro total q _
  apply congrArg (addMax total)
  rw [← foldl_filterMap
    (fun d => if enc.skip_ids.contains
        (packed.token_ids.getD (tokenOffsetAt packed doc_idx + d) 0) then none
      else some (packedRowAt packed (packed.offsets.getD doc_idx 0) d))
    (fun max_dot row =>
      match max_dot with
      | none => some (dotRow query q row)
      | some m =>
        if m < dotRow query q row then some (dotRow query q row) else max_dot)
    (List.range (packed.lengths.getD doc_idx 0)) none]
  apply List.foldl_ext
  intro acc d _
  by_cases hskip : enc.skip_ids.contains
      (packed.token_ids.getD (tokenOffsetAt packed doc_idx + d) 0) = true
  · rw [if_pos hskip, if_pos hskip]
  · rw [if_neg hskip, if_neg hskip]
    simp only [dotRow_packedRowAt query packed hp]

lemma max_sim_all_skip (enc : ColbertEncoderOrt) (query : QueryEmbedding)
    (doc : DocEmbedding)
    (h : ∀ d < doc.seq_len, enc.skip_ids.contains (doc.token_ids.getD d 0) = true) :
    max_sim enc query doc = 0 := by
  unfold max_sim
  refine Eq.trans (List.foldl_ext _ (fun total _ => total) 0 ?_) (foldl_self _ 0)
  intro total q _
  rw [foldl_if_skip (fun d => enc.skip_ids.contains (doc.token_ids.getD d 0)) _
    (List.range doc.seq_len) none (fun d hd => h d (List.mem_range.mp hd))]
  rfl

lemma scoreOneDoc_all_skip (enc : ColbertEncoderOrt) (query : QueryEmbedding)
    (packed : PackedDocEmbeddings) (doc_idx : ℕ)
    (h : ∀ d < packed.lengths.getD doc_idx 0,
      enc.skip_ids.contains
        (packed.token_ids.getD (tokenOffsetAt packed doc_idx + d) 0) = true) :
    scoreOneDoc enc query packed doc_idx = 0 := by
  unfold scoreOneDoc
  split
  · rfl
  · refine Eq.trans (List.foldl_ext _ (fun total _ => total) 0 ?_) (foldl_self _ 0)
    intro total q _
    rw [foldl_if_skip
      (fun d => enc.skip_ids.contains
        (packed.token_ids.getD (tokenOffsetAt packed doc_idx + d) 0)) _
      (List.range (packed.lengths.getD doc_idx 0)) none
      (fun d hd => h d (List.mem_range.mp hd))]
    rfl

/-- C7: in MaxSim scoring (max_sim and score_packed), a skip-listed document
token contributes to no query row: a document all of whose tokens are
skip-listed scores exactly 0, and two documents with identical visible
(non-skip-listed) rows receive identical scores against every query. -/
theorem C7_skiplist_semantics :
    (∀ (enc : ColbertEncoderOrt) (query : QueryEmbedding) (doc : DocEmbedding),
      (∀ d < doc.seq_len, enc.skip_ids.contains (doc.token_ids.getD d 0) = true) →
      max_sim enc query doc = 0) ∧
    (∀ (enc : ColbertEncoderOrt) (query : QueryEmbedding) (doc₁ doc₂ : DocEmbedding),
      doc₁.hidden_size = query.hidden_size → doc₂.hidden_size = query.hidden_size →
      nonSkipRows enc doc₁ = nonSkipRows enc doc₂ →
      max_sim enc query doc₁ = max_sim enc query doc₂) ∧
    (∀ (enc : ColbertEncoderOrt) (query : QueryEmbedding)
       (packed : PackedDocEmbeddings) (doc_idx : ℕ),
      (∀ d < packed.lengths.getD doc_idx 0,
        enc.skip_ids.contains
          (packed.token_ids.getD (tokenOffsetAt packed doc_idx + d) 0) = true) →
      scoreOneDoc enc query packed doc_idx = 0) ∧
    (∀ (enc : ColbertEncoderOrt) (query : QueryEmbedding)
       (packed₁ packed₂ : PackedDocEmbeddings) (i₁ i₂ : ℕ),
      i₁ < packed₁.lengths.length → i₂ < packed₂.lengths.length →
      packed₁.hidden_size = query.hidden_size →
      packed₂.hidden_size = query.hidden_size →
      nonSkipPackedRows enc packed₁ i₁ = nonSkipPackedRows enc packed₂ i₂ →
      scoreOneDoc enc query packed₁ i₁ = scoreOneDoc enc query packed₂ i₂) := by
  refine ⟨max_sim_all_skip, ?_, scoreOneDoc_all_skip, ?_⟩
  · intro enc query doc₁ doc₂ h1 h2 heq
    rw [max_sim_eq_maxSimRows enc query doc₁ h1,
      max_sim_eq_maxSimRows enc query doc₂ h2, heq]
  · intro enc query p₁ p₂ i₁ i₂ hi1 hi2 hp1 hp2 heq
    rw [scoreOneDoc_eq_maxSimRows enc query p₁ i₁ hi1 hp1,
      scoreOneDoc_eq_maxSimRows enc query p₂ i₂ hi2 hp2, heq]

/-- Concrete one-token all-skip document (token 5 is on encW1's skip list). -/
def docSkipW : DocEmbedding :=
  { embeddings := [2], token_ids := [5], seq_len := 1, hidden_size := 1 }

/-- Concrete document whose visible rows are `[[3]]`. -/
def docAW : DocEmbedding :=
  { embeddings := [2, 3], token_ids := [5, 6], seq_len := 2, hidden_size := 1 }

/-- Concrete document with a different skipped row but identical visible
rows `[[3]]`. -/
def docBW : DocEmbedding :=
  { embeddings := [7, 3], token_ids := [5, 6], seq_len := 2, hidden_size := 1 }

/-- Concrete packed index whose single document is entirely skip-listed. -/
def packedSkipW : PackedDocEmbeddings :=
  { embeddings := [2], token_ids := [5], lengths := [1], offsets := [0]
    hidden_size := 1 }

/-- Concrete packed index with the same visible rows `[[4]]` as packedW's
document 0. -/
def packedW2 : PackedDocEmbeddings :=
  { embeddings := [4], token_ids := [6], lengths := [1], offsets := [0]
    hidden_size := 1 }

/-- C7, witness: the all-skip document scores 0 in both scorers, and the
skip-list-differing document pairs score identically. -/
theorem C7_witness :
    max_sim encW1 qW docSkipW = 0 ∧
    max_sim encW1 qW docAW = max_sim encW1 qW docBW ∧
    scoreOneDoc encW1 qW packedSkipW 0 = 0 ∧
    scoreOneDoc encW1 qW packedW 0 = scoreOneDoc encW1 qW packedW2 0 :=
  ⟨C7_skiplist_semantics.1 encW1 qW docSkipW (by decide),
   C7_skiplist_semantics.2.1 encW1 qW docAW docBW rfl rfl (by decide),
   C7_skiplist_semantics.2.2.1 encW1 qW packedSkipW 0 (by decide),
   C7_skiplist_semantics.2.2.2 encW1 qW packedW packedW2 0 0 (by decide) (by decide)
     rfl rfl (by decide)⟩

/-! Stability of the descending-score sort. -/

lemma zip_fst_snd {α β : Type} : ∀ l : List (α × β),
    (l.map Prod.fst).zip (l.map Prod.snd) = l := by
  intro l
  induction l with
  | nil => rfl
  | cons a t ih => simp [ih]

lemma sortByScoreDesc_filter_eq (l : List (ℕ × ℚ)) (s : ℚ) :
    (sortByScoreDesc l).filter (fun p => decide (p.2 = s)) =
      l.filter (fun p => decide (p.2 = s)) := by
  unfold sortByScoreDesc
  have htrans : ∀ a b c : ℕ × ℚ,
      (fun a b : ℕ × ℚ => decide (b.2 ≤ a.2)) a b = true →
      (fun a b : ℕ × ℚ => decide (b.2 ≤ a.2)) b c = true →
      (fun a b : ℕ × ℚ => decide (b.2 ≤ a.2)) a c = true := by
    intro a b c h1 h2
    simp only [decide_eq_true_eq] at h1 h2 ⊢
    exact le_trans h2 h1
  have htotal : ∀ a b : ℕ × ℚ,
      ((fun a b : ℕ × ℚ => decide (b.2 ≤ a.2)) a b ||
        (fun a b : ℕ × ℚ => decide (b.2 ≤ a.2)) b a) = true := by
    intro a b
    rcases le_total b.2 a.2 with h | h <;> simp [h]
  have hpair : (l.filter (fun p => decide (p.2 = s))).Pairwise
      (fun a b => (fun a b : ℕ × ℚ => decide (b.2 ≤ a.2)) a b = true) := by
    apply List.pairwise_of_forall_mem_list
    intro a ha b hb
    have ha2 : a.2 = s := by simpa using (List.mem_filter.mp ha).2
    have hb2 : b.2 = s := by simpa using (List.mem_filter.mp hb).2
    simp [ha2, hb2]
  have hsub : (l.filter (fun p => decide (p.2 = s))).Sublist
      (l.mergeSort (fun a b => decide (b.2 ≤ a.2))) :=
    List.sublist_mergeSort htrans htotal hpair (List.filter_sublist l)
  have hperm : ((l.mergeSort (fun a b => decide (b.2 ≤ a.2))).filter
      (fun p => decide (p.2 = s))).Perm (l.filter (fun p => decide (p.2 = s))) :=
    (List.mergeSort_perm l _).filter _
  have hsub2 : (l.filter (fun p => decide (p.2 = s))).Sublist
      ((l.mergeSort (fun a b => decide (b.2 ≤ a.2))).filter
        (fun p => decide (p.2 = s))) := by
    have hff := hsub.filter (fun p => decide (p.2 = s))
    rw [List.filter_filter] at hff
    have hand : (fun a : ℕ × ℚ => decide (a.2 = s) && decide (a.2 = s)) =
        (fun a : ℕ × ℚ => decide (a.2 = s)) := by
      funext a
      exact Bool.and_self _
    rwa [hand] at hff
  exact (hsub2.eq_of_length hperm.length_eq.symm).symm

/-- C9: on equal document scores the rerank operations are stable: the
descending sort they share (sortByScoreDesc) preserves the caller's
candidate order within every equal-score class, and in a non-truncating call
(top_k ≥ #candidates) the (index, score) pairs of each equal-score class
come out of rerank_from_packed and rerank_colbert exactly as they appeared
in the caller's candidate list. -/
theorem C9_stable_tie_order :
    (∀ (l : List (ℕ × ℚ)) (s : ℚ),
      (sortByScoreDesc l).filter (fun p => decide (p.2 = s)) =
        l.filter (fun p => decide (p.2 = s))) ∧
    (∀ (enc : ColbertEncoderOrt) (qdata : ℕ → ℚ) (qtoken_ids : List ℕ)
       (packed : PackedDocEmbeddings) (doc_indices : List ℕ) (top_k : ℕ) (s : ℚ),
      doc_indices.length ≤ top_k →
      ((rerank_from_packed enc qdata qtoken_ids packed doc_indices top_k).indices.zip
        (rerank_from_packed enc qdata qtoken_ids packed doc_indices top_k).scores).filter
          (fun p => decide (p.2 = s)) =
        (doc_indices.zip (score_packed enc (encode_query enc qdata qtoken_ids)
          packed doc_indices)).filter (fun p => decide (p.2 = s))) ∧
    (∀ (enc : ColbertEncoderOrt) (query_embeddings : List ℚ)
       (doc_embeddings : List ℤ) (doc_token_ids : List ℕ)
       (doc_lengths doc_offsets : List ℕ) (candidate_indices : List ℕ)
       (top_k : ℕ) (s : ℚ),
      candidate_indices.length ≤ top_k →
      ((rerank_colbert enc query_embeddings doc_embeddings doc_token_ids
          doc_lengths doc_offsets candidate_indices top_k).indices.zip
        (rerank_colbert enc query_embeddings doc_embeddings doc_token_ids
          doc_lengths doc_offsets candidate_indices top_k).scores).filter
          (fun p => decide (p.2 = s)) =
        (candidate_indices.zip (score_packed enc
          ⟨query_embeddings, query_embeddings.length / 48, 48⟩
          ⟨doc_embeddings.map dequantI8, doc_token_ids, doc_lengths,
            doc_offsets, 48⟩
          candidate_indices)).filter (fun p => decide (p.2 = s))) := by
  refine ⟨sortByScoreDesc_filter_eq, ?_, ?_⟩
  · intro enc qdata qtoken_ids packed doc_indices top_k s h
    simp only [rerank_from_packed]
    have hlen : (sortByScoreDesc (doc_indices.zip (score_packed enc
        (encode_query enc qdata qtoken_ids) packed doc_indices))).length ≤ top_k := by
      unfold sortByScoreDesc
      rw [List.length_mergeSort, List.length_zip]
      simp only [score_packed, List.length_map, min_self]
      exact h
    rw [min_eq_right hlen, List.take_length, zip_fst_snd]
    exact sortByScoreDesc_filter_eq _ s
  · intro enc qe de dt dl dof cands top_k s h
    simp only [rerank_colbert]
    have hlen : (sortByScoreDesc (cands.zip (score_packed enc
        ⟨qe, qe.length / 48, 48⟩
        ⟨de.map dequantI8, dt, dl, dof, 48⟩ cands))).length ≤ top_k := by
      unfold sortByScoreDesc
      rw [List.length_mergeSort, List.length_zip]
      simp only [score_packed, List.length_map, min_self]
      exact h
    rw [min_eq_right hlen, List.take_length, zip_fst_snd]
    exact sortByScoreDesc_filter_eq _ s

/-- C9, witness: a non-truncating rerank call over two copies of the same
candidate index. -/
theorem C9_witness :
    ((rerank_from_packed encW1 dataW [] packedW [0, 0] 5).indices.zip
      (rerank_from_packed encW1 dataW [] packedW [0, 0] 5).scores).filter
        (fun p => decide (p.2 = (0 : ℚ))) =
      (([0, 0] : List ℕ).zip (score_packed encW1 (encode_query encW1 dataW [])
        packedW [0, 0])).filter (fun p => decide (p.2 = (0 : ℚ))) :=
  C9_stable_tie_order.2.1 encW1 dataW [] packedW [0, 0] 5 0 (by decide)

end Osgrep
